import Mathlib

/-!
Verification of the bounded staging-and-upload pipeline of gcs-unzip
(src/main.go, src/extractor.go) against its natural-language specification.

The Go source is shallowly embedded: pure helpers (path manipulation,
byte-size flag parsing, the junk-entry filter) become Lean functions on
`String`/`List Char`; the pipeline of `run` (first scan pass, capacity
check, extraction producer, upload workers) becomes an executable model
producing a trace of effect events; the weighted disk semaphore becomes a
guarded transition system on lists of reservations.  Machine integers are
modelled as `Nat`, with `% 2^64` where Go's uint64 arithmetic can wrap.
-/

set_option maxHeartbeats 1000000

namespace GcsUnzip

/-! ## Go string helpers -/

/-- Model of Go `strings.ToLower` on the ASCII strings the program compares
(file extensions, byte-unit suffixes). -/
def goToLower (s : String) : String := ⟨s.data.map Char.toLower⟩

/-- Model of Go `strings.Cut(rest, sep)` for the single-character separator
`'/'` (`os.PathSeparator` on Linux): `none` when the separator does not
occur (Go's `found = false`, `before` is the whole string, `after` empty),
`some (before, after)` when it does. -/
def goCut : List Char → Option (List Char × List Char)
  | [] => none
  | c :: cs =>
    if c = '/' then some ([], cs)
    else
      match goCut cs with
      | none => none
      | some (b, a) => some (c :: b, a)

theorem goCut_length : ∀ (l n a : List Char), goCut l = some (n, a) → a.length < l.length := by
  intro l
  induction l with
  | nil => intro n a h; simp [goCut] at h
  | cons c cs ih =>
    intro n a h
    simp only [goCut] at h
    by_cases hc : c = '/'
    · simp [hc] at h
      obtain ⟨-, rfl⟩ := h
      simp
    · simp [hc] at h
      cases hcut : goCut cs with
      | none => rw [hcut] at h; simp at h
      | some p =>
        obtain ⟨b', a'⟩ := p
        rw [hcut] at h
        simp at h
        obtain ⟨-, rfl⟩ := h
        have := ih b' a' hcut
        simp
        omega

/-- Model of Go `strings.HasSuffix`. -/
def goHasSuffix (s suf : String) : Bool :=
  suf.data.isSuffixOf s.data

/-- Model of Go `strings.TrimSuffix`. -/
def goTrimSuffix (s suf : String) : String :=
  if goHasSuffix s suf then ⟨s.data.take (s.data.length - suf.data.length)⟩ else s

/-- Model of Go `strings.TrimPrefix`. -/
def goTrimPre (s pre : String) : String :=
  if pre.data.isPrefixOf s.data then ⟨s.data.drop pre.data.length⟩ else s

/-- Model of Go's `name[1:]` on a non-empty ASCII string. -/
def dropHead (s : String) : String := ⟨s.data.drop 1⟩

/-! ## Path helpers (`path.Ext`, `path.Base`, `filepath.Ext` coincide on Linux) -/

/-- Scans the reversed character list; mirrors Go `path.Ext`'s backwards scan
stopping at the last `'.'` after the last `'/'`. -/
def pathExtAux : List Char → List Char → String
  | [], _ => ""
  | c :: rev, acc =>
    if c = '/' then ""
    else if c = '.' then ⟨'.' :: acc⟩
    else pathExtAux rev (c :: acc)

/-- Model of Go `path.Ext` (and of `filepath.Ext` on Linux): the suffix
beginning at the final dot in the final slash-separated element, `""` when
there is no dot. -/
def pathExt (s : String) : String := pathExtAux s.data.reverse []

/-- Model of Go `path.Base`: strip trailing slashes, take the last element;
`"."` for the empty string, `"/"` for all-slash strings. -/
def pathBase (s : String) : String :=
  if s.data = [] then "."
  else
    let l := (s.data.reverse.dropWhile (fun c => c == '/')).reverse
    if l = [] then "/"
    else ⟨(l.reverse.takeWhile (fun c => c != '/')).reverse⟩

/-- Model of `trimExt` (main.go:479-481): `strings.TrimSuffix(name, filepath.Ext(name))`. -/
def trimExt (name : String) : String := goTrimSuffix name (pathExt name)

/-! ## Junk-entry filter (`isIgnoreMeta`, main.go:463-477) -/

def dsStoreL : List Char := ".DS_Store".data
def thumbsL : List Char := "Thumbs.db".data
def macosxL : List Char := "__MACOSX".data

/-- The final-component junk check of main.go:469:
`n == ".DS_Store" || n == "Thumbs.db" || n == "__MACOSX"`. -/
def junkL (n : List Char) : Bool :=
  n = dsStoreL || n = thumbsL || n = macosxL

/-- Model of the loop of `isIgnoreMeta` (main.go:464-476): repeatedly
`strings.Cut` on the path separator; when the separator is absent the
remaining component is tested against the junk set; a non-final component
equal to `__MACOSX` returns true immediately.  An exhausted rest (the loop
guard `rest != ""`) yields false, which coincides with the `goCut = none`
branch because `junkL [] = false`.  Each iteration consumes at least one
character of `rest`, so the loop is made structurally recursive on a fuel
bounded below by the string length. -/
def isIgnoreMetaFuel : Nat → List Char → Bool
  | 0, _ => false
  | fuel + 1, l =>
    match goCut l with
    | none => junkL l
    | some (n, a) => if n = macosxL then true else isIgnoreMetaFuel fuel a

/-- Model of `isIgnoreMeta` (main.go:463-477). -/
def isIgnoreMeta (name : String) : Bool :=
  isIgnoreMetaFuel (name.data.length + 1) name.data

/-- The producer's and scan pass's exclusion condition
`!*withMeta && isIgnoreMeta(name)` (main.go:227, main.go:300). -/
def metaExcluded (withMeta : Bool) (name : String) : Bool :=
  !withMeta && isIgnoreMeta name

/-- The path's components: the string split on the `'/'` separator; used
only to phrase the specification's reading of the junk filter. -/
def splitSep : List Char → List (List Char)
  | [] => [[]]
  | c :: cs =>
    if c = '/' then [] :: splitSep cs
    else
      match splitSep cs with
      | [] => [[c]]
      | x :: xs => (c :: x) :: xs

/-- The specification's description of the junk filter: the path has
`__MACOSX` as a non-final component, or its final component is exactly
`.DS_Store`, `Thumbs.db`, or `__MACOSX`. -/
def metaJunkSpec (name : String) : Bool :=
  let cs := splitSep name.data
  cs.dropLast.any (fun x => x = macosxL) ||
    (match cs.getLast? with
     | some x => junkL x
     | none => false)

/-! ## Byte-size flag values (`bytesValue`, main.go:349-388) -/

structure BUnit where
  suffix : String
  value : Nat
deriving DecidableEq

/-- The unit table `bytesUnits` (main.go:349-361), in source order. -/
def bytesUnits : List BUnit :=
  [⟨"g", 1 * 1024 * 1024 * 1024⟩,
   ⟨"m", 1 * 1024 * 1024⟩,
   ⟨"k", 1 * 1024⟩,
   ⟨"gb", 1 * 1024 * 1024 * 1024⟩,
   ⟨"mb", 1 * 1024 * 1024⟩,
   ⟨"kb", 1 * 1024⟩,
   ⟨"b", 1⟩,
   ⟨"", 1⟩]

/-- Model of Go `strconv.ParseUint(s, 10, 64)`: errors on the empty string,
on any non-digit character, and on overflow past `2^64 - 1`. -/
def parseUint10 (s : String) : Option Nat :=
  if s.data = [] then none
  else if s.data.all (fun c => c.isDigit) then
    let v := s.data.foldl (fun acc c => acc * 10 + (c.toNat - 48)) 0
    if v < 2 ^ 64 then some v else none
  else none

inductive SetRes
  | ok (v : Nat)
  | err
  | panicked
deriving DecidableEq

/-- The loop body of `bytesValue.Set` (main.go:376-386): first unit whose
suffix matches ends the loop; falling off the end is the
`panic("unreachable")` at main.go:387.  The Go uint64 multiplication
`v * u.value` wraps, hence `% 2^64`. -/
def setLoop (x : String) : List BUnit → SetRes
  | [] => SetRes.panicked
  | u :: us =>
    if goHasSuffix x u.suffix then
      match parseUint10 (goTrimSuffix x u.suffix) with
      | none => SetRes.err
      | some v => SetRes.ok (v * u.value % 2 ^ 64)
    else setLoop x us

/-- Model of `bytesValue.Set` (main.go:374-388): lower-cases the input and
runs the unit loop. -/
def bytesSet (s : String) : SetRes := setLoop (goToLower s) bytesUnits

/-! ## Archive-format dispatch (main.go:66-70, extractor.go:25-46) -/

inductive ExtRes
  | sevenzFmt
  | zipFmt
  | panicFmt
deriving DecidableEq

/-- The extension validation in `run` (main.go:66-70):
`switch ext := path.Ext(src.Path); strings.ToLower(ext)` accepting `.7z`
and `.zip`. -/
def validateExtRun (p : String) : Bool :=
  let e := goToLower (pathExt p)
  e = ".7z" || e = ".zip"

/-- The format dispatch of `NewExtractor` (extractor.go:30-45):
`switch filepath.Ext(f.Name())` — case-SENSITIVE, with
`panic("unreachable")` in the default branch.  Reader-construction errors
of the archive libraries are out of scope; only the extension dispatch is
modelled. -/
def newExtractorModel (fname : String) : ExtRes :=
  if pathExt fname = ".7z" then ExtRes.sevenzFmt
  else if pathExt fname = ".zip" then ExtRes.zipFmt
  else ExtRes.panicFmt

/-! ## Pipeline data model -/

/-- One archive entry as exposed by the `Extractor` interface
(extractor.go:17-23): `FileName`, `FileSize`, `IsDir`. -/
structure Entry where
  name : String
  size : Nat
  isDir : Bool
deriving DecidableEq

/-- One `uploadJob` (main.go:256-259). -/
structure Job where
  name : String
  size : Nat
deriving DecidableEq

/-- Observable effects of a run, in the order the code performs them. -/
inductive Ev
  | download
  | mkdirEv (name : String)
  | acquireEv (size : Nat)
  | stageEv (name : String)
  | sendEv (name : String) (size : Nat)
  | destWrite (name : String)
  | countIncEv
  | removeEv (name : String)
  | logRemoveFail
  | releaseEv (size : Nat)
deriving DecidableEq

inductive RunErr
  | unsupportedFormat (e : String)
  | downloadErr
  | panicked
  | noSpace (name : String) (size : Nat)
  | mkdirErr
  | acquireErr
  | writeTempErr
  | uploadErr
deriving DecidableEq

/-- Failure/cancellation schedule: which external operations fail and where
cancellation is observed, indexed by producer iteration or job number. -/
structure Sched where
  downloadFails : Bool
  cancelledAtIter : Nat → Bool
  acquireCancelled : Nat → Bool
  mkdirFails : Nat → Bool
  writeTempFails : Nat → Bool
  uploadCancelled : Nat → Bool
  uploadFails : Nat → Bool
  removeFails : Nat → Bool

def schedOk : Sched :=
  ⟨false, fun _ => false, fun _ => false, fun _ => false, fun _ => false,
   fun _ => false, fun _ => false, fun _ => false⟩

def schedWT : Sched :=
  ⟨false, fun _ => false, fun _ => false, fun _ => false, fun _ => true,
   fun _ => false, fun _ => false, fun _ => false⟩

/-- Result of the first scan pass (main.go:217-243). -/
structure ScanOut where
  filesCount : Nat
  largestSize : Nat
  largestFile : String
  topDirOnly : Bool
deriving DecidableEq

def scanInit : ScanOut := ⟨0, 0, "", true⟩

/-- The first path component `top` from `strings.Cut(name, sep)` (main.go:231). -/
def topOf (name : String) : String :=
  match goCut name.data with
  | none => name
  | some (n, _) => ⟨n⟩

/-- The first pass over the archive (main.go:221-243): skip directories,
skip meta-excluded entries, update `topDirOnly`, count the file, and track
the largest entry with a strict `largestSize < size` update. -/
def scanPass (wm st : Bool) (an : String) : List Entry → ScanOut → ScanOut
  | [], acc => acc
  | e :: rest, acc =>
    if e.isDir then scanPass wm st an rest acc
    else if metaExcluded wm e.name then scanPass wm st an rest acc
    else
      let tdo := if st && acc.topDirOnly then
                   (if topOf e.name = an then acc.topDirOnly else false)
                 else acc.topDirOnly
      if acc.largestSize < e.size then
        scanPass wm st an rest ⟨acc.filesCount + 1, e.size, e.name, tdo⟩
      else
        scanPass wm st an rest ⟨acc.filesCount + 1, acc.largestSize, acc.largestFile, tdo⟩

/-- Model of `filepath.Join` for the already-clean relative operands the
producer passes it (main.go:309). -/
def joinPath (a b : String) : String :=
  if a = "" then b else if b = "" then a else a ++ "/" ++ b

/-- The producer's name rewrite (main.go:303-309): optional top-level strip
(`TrimPrefix` then `name[1:]` when non-empty) followed by
`filepath.Join(archiveName, name)`. -/
def rewriteName (st tdo : Bool) (an name : String) : String :=
  let n := if st && tdo then
             (let t := goTrimPre name an
              if t = "" then t else dropHead t)
           else name
  joinPath an n

/-- Producer output: its event trace, the jobs handed to the channel, and
the error it returns, if any. -/
structure POut where
  evs : List Ev
  jobs : List Job
  err : Option RunErr
deriving DecidableEq

/-- The extraction producer loop `FILES` (main.go:292-325), one iteration
per archive entry `i`: cancellation check, junk filter, name rewrite,
directory handling via `MkdirAll`, `diskSem.Acquire` for the declared size,
`writeTemporary`, and the job send.  A failing `Acquire` (cancellation,
main.go:317-319) returns before reserving; a failing `writeTemporary`
(main.go:321-323) returns the error with the reservation still held — the
producer has no release path. -/
def producerGo (wm st : Bool) (an : String) (sch : Sched) (tdo : Bool) :
    Nat → List Entry → POut
  | _, [] => ⟨[], [], none⟩
  | i, e :: rest =>
    if sch.cancelledAtIter i then ⟨[], [], none⟩
    else if metaExcluded wm e.name then producerGo wm st an sch tdo (i + 1) rest
    else
      let name := rewriteName st tdo an e.name
      if e.isDir then
        if sch.mkdirFails i then ⟨[Ev.mkdirEv name], [], some RunErr.mkdirErr⟩
        else
          let r := producerGo wm st an sch tdo (i + 1) rest
          ⟨Ev.mkdirEv name :: r.evs, r.jobs, r.err⟩
      else if sch.acquireCancelled i then ⟨[], [], some RunErr.acquireErr⟩
      else if sch.writeTempFails i then ⟨[Ev.acquireEv e.size], [], some RunErr.writeTempErr⟩
      else
        let r := producerGo wm st an sch tdo (i + 1) rest
        ⟨Ev.acquireEv e.size :: Ev.stageEv name :: Ev.sendEv name e.size :: r.evs,
         ⟨name, e.size⟩ :: r.jobs, r.err⟩

/-- The upload closure (main.go:130-196): when cancellation is already
observed at the start it returns nil having written nothing (main.go:131-135);
otherwise it streams to the destination, returning an error on a failed
copy/close, and bumps the atomic upload counter only after a successful
close (main.go:188). -/
def uploadModel (cancelled fails : Bool) (name : String) : List Ev × Option RunErr :=
  if cancelled then ([], none)
  else if fails then ([Ev.destWrite name], some RunErr.uploadErr)
  else ([Ev.destWrite name, Ev.countIncEv], none)

/-- One upload worker (main.go:276-288): runs `upload`, then the deferred
`os.Remove` of the temp file (whose failure is only logged, main.go:282-285),
then the deferred `diskSem.Release(size)` (main.go:277).  The worker's
result is exactly the upload's result. -/
def workerStep (cancelled fails rfail : Bool) (j : Job) : List Ev × Option RunErr :=
  let u := uploadModel cancelled fails j.name
  let rem := if rfail then [Ev.removeEv j.name, Ev.logRemoveFail] else [Ev.removeEv j.name]
  (u.1 ++ rem ++ [Ev.releaseEv j.size], u.2)

/-- The worker pool consuming the job channel (main.go:262-290): one worker
invocation per job, k-th job taking the k-th scheduled outcomes; the first
error is kept. -/
def workersRun (sch : Sched) : Nat → List Job → List Ev × Option RunErr
  | _, [] => ([], none)
  | k, j :: js =>
    let w := workerStep (sch.uploadCancelled k) (sch.uploadFails k) (sch.removeFails k) j
    let r := workersRun sch (k + 1) js
    (w.1 ++ r.1,
     match w.2 with
     | some e => some e
     | none => r.2)

/-- The phases of `run` (main.go:31-333) that the claims are about, in
source order: extension validation (main.go:66-70), archive download
(main.go:92), `NewExtractor` dispatch (main.go:212), first scan pass
(main.go:217-243), the capacity check (main.go:244-246), then the producer
and the worker pool.  Setup steps with no bearing on the claims (flag
parsing, storage-client and work-dir creation) are elided. -/
def runModel (src : String) (wm st : Bool) (limit : Nat) (entries : List Entry)
    (sch : Sched) : List Ev × Option RunErr :=
  if !validateExtRun src then ([], some (RunErr.unsupportedFormat (pathExt src)))
  else if sch.downloadFails then ([Ev.download], some RunErr.downloadErr)
  else
    match newExtractorModel (pathBase src) with
    | ExtRes.panicFmt => ([Ev.download], some RunErr.panicked)
    | _ =>
      let an := trimExt (pathBase src)
      let sc := scanPass wm st an entries scanInit
      if limit < sc.largestSize then
        ([Ev.download], some (RunErr.noSpace sc.largestFile sc.largestSize))
      else
        let p := producerGo wm st an sch sc.topDirOnly 0 entries
        let w := workersRun sch 0 p.jobs
        (Ev.download :: p.evs ++ w.1,
         match p.err with
         | some e => some e
         | none => w.2)

/-! ## Event counting helpers -/

def isAcquireEv : Ev → Bool
  | Ev.acquireEv _ => true
  | _ => false

def isSendEv : Ev → Bool
  | Ev.sendEv _ _ => true
  | _ => false

def isReleaseEv : Ev → Bool
  | Ev.releaseEv _ => true
  | _ => false

def isDestWrite : Ev → Bool
  | Ev.destWrite _ => true
  | _ => false

def isRemoveEv : Ev → Bool
  | Ev.removeEv _ => true
  | _ => false

def isCountInc : Ev → Bool
  | Ev.countIncEv => true
  | _ => false

def isLogEv : Ev → Bool
  | Ev.logRemoveFail => true
  | _ => false

def countAcq (evs : List Ev) : Nat := evs.countP isAcquireEv
def countSend (evs : List Ev) : Nat := evs.countP isSendEv
def countRel (evs : List Ev) : Nat := evs.countP isReleaseEv
def countWrite (evs : List Ev) : Nat := evs.countP isDestWrite
def countRemove (evs : List Ev) : Nat := evs.countP isRemoveEv
def countLog (evs : List Ev) : Nat := evs.countP isLogEv

/-- The entries the first pass counts (`filesCount`) and the producer may
stage: not a directory and not excluded by the junk filter. -/
def eligibleEntry (wm : Bool) (e : Entry) : Bool :=
  !e.isDir && !metaExcluded wm e.name

def eligibleCount (wm : Bool) : List Entry → Nat
  | [] => 0
  | e :: rest =>
    if eligibleEntry wm e then eligibleCount wm rest + 1 else eligibleCount wm rest

/-- The largest declared size among the eligible entries of the archive. -/
def eligibleMaxSize (wm : Bool) : List Entry → Nat
  | [] => 0
  | e :: rest =>
    if eligibleEntry wm e then max e.size (eligibleMaxSize wm rest)
    else eligibleMaxSize wm rest

/-! ## The weighted disk semaphore (`diskSem`, main.go:254) -/

/-- One outstanding quota reservation: created by `diskSem.Acquire(ctx, size)`
(main.go:317) for a staged entry, destroyed by `diskSem.Release(size)`
(main.go:277) in the worker that consumed the entry's job. -/
structure Reservation where
  rid : Nat
  rsize : Nat
deriving DecidableEq

inductive QEvent
  | acq (id n : Nat)
  | rel (id : Nat)
deriving DecidableEq

def heldSum (held : List Reservation) : Nat := (held.map Reservation.rsize).sum

/-- Admission rule of `golang.org/x/sync/semaphore.Weighted.Acquire`: the
acquire succeeds only while the outstanding total plus the new weight stays
within the semaphore's size. -/
def semCanAcquire (limit cur n : Nat) : Bool := cur + n ≤ limit

/-- One step of the quota gate: an acquire is admitted only under the
semaphore rule (and a fresh id), a release must match an outstanding
reservation and removes it. -/
def qStep (limit : Nat) (held : List Reservation) : QEvent → Option (List Reservation)
  | QEvent.acq id n =>
    if held.all (fun r => r.rid != id) && semCanAcquire limit (heldSum held) n then
      some (⟨id, n⟩ :: held)
    else none
  | QEvent.rel id =>
    if held.any (fun r => r.rid == id) then
      some (held.filter (fun r => r.rid != id))
    else none

/-- A trace of the quota gate: all steps admitted, final held set returned. -/
def qRun (limit : Nat) (held : List Reservation) : List QEvent → Option (List Reservation)
  | [] => some held
  | e :: es =>
    match qStep limit held e with
    | none => none
    | some h => qRun limit h es

/-! ## Helper lemmas -/

theorem goHasSuffix_empty (s : String) : goHasSuffix s "" = true := by
  simp [goHasSuffix, List.isSuffixOf]

theorem setLoop_total (us : List BUnit) (x : String) (hmem : ∃ u ∈ us, u.suffix = "") :
    (∃ v, setLoop x us = SetRes.ok v) ∨ setLoop x us = SetRes.err := by
  induction us with
  | nil => simp at hmem
  | cons u us ih =>
    by_cases hs : goHasSuffix x u.suffix
    · simp only [setLoop, hs, if_true]
      cases hp : parseUint10 (goTrimSuffix x u.suffix) with
      | none => right; rfl
      | some v => left; exact ⟨_, rfl⟩
    · simp only [setLoop, hs]
      simp only [List.mem_cons] at hmem
      obtain ⟨w, hw, hsuf⟩ := hmem
      cases hw with
      | inl h =>
        subst h
        rw [hsuf, goHasSuffix_empty] at hs
        simp at hs
      | inr h => exact ih ⟨w, h, hsuf⟩

theorem splitSep_ne_nil (l : List Char) : splitSep l ≠ [] := by
  cases l with
  | nil => simp [splitSep]
  | cons c cs =>
    simp only [splitSep]
    split
    · simp
    · split <;> simp

theorem goCut_none_splitSep : ∀ l : List Char, goCut l = none → splitSep l = [l] := by
  intro l
  induction l with
  | nil => intro; rfl
  | cons c cs ih =>
    intro h
    simp only [goCut] at h
    by_cases hc : c = '/'
    · simp [hc] at h
    · simp only [hc, if_false] at h
      cases hcut : goCut cs with
      | none =>
        simp only [splitSep, hc, if_false, ih hcut]
      | some p => rw [hcut] at h; obtain ⟨b, a⟩ := p; simp at h

theorem goCut_some_splitSep :
    ∀ l n a, goCut l = some (n, a) → splitSep l = n :: splitSep a := by
  intro l
  induction l with
  | nil => intro n a h; simp [goCut] at h
  | cons c cs ih =>
    intro n a h
    simp only [goCut] at h
    by_cases hc : c = '/'
    · simp only [hc, if_true] at h
      obtain ⟨h1, h2⟩ := Prod.mk.injEq .. ▸ Option.some.injEq .. ▸ h
      simp only [splitSep, hc, if_true]
      rw [← h1, ← h2]
    · simp only [hc, if_false] at h
      cases hcut : goCut cs with
      | none => rw [hcut] at h; simp at h
      | some p =>
        obtain ⟨b, a'⟩ := p
        rw [hcut] at h
        simp only [Option.some.injEq, Prod.mk.injEq] at h
        obtain ⟨h1, h2⟩ := h
        have := ih b a' hcut
        simp only [splitSep, hc, if_false, this]
        rw [← h1, ← h2]

/-- The final-component / non-final-component reading of the `isIgnoreMeta`
loop, proved by induction on the fuel. -/
theorem ign_fuel_spec : ∀ f l, l.length < f →
    isIgnoreMetaFuel f l =
      ((splitSep l).dropLast.any (fun x => x = macosxL) ||
        (match (splitSep l).getLast? with
         | some x => junkL x
         | none => false)) := by
  intro f
  induction f with
  | zero => intro l h; omega
  | succ f ih =>
    intro l hl
    cases hc : goCut l with
    | none =>
      rw [goCut_none_splitSep l hc]
      simp [isIgnoreMetaFuel, hc]
    | some p =>
      obtain ⟨n, a⟩ := p
      rw [goCut_some_splitSep l n a hc]
      have hlen : a.length < f := by
        have := goCut_length l n a hc
        omega
      cases hsp : splitSep a with
      | nil => exact absurd hsp (splitSep_ne_nil a)
      | cons x xs =>
        simp only [isIgnoreMetaFuel, hc, ih a hlen, hsp]
        by_cases hn : n = macosxL
        · simp [hn]
        · simp only [hn, if_false, List.dropLast_cons₂, List.any_cons,
            List.getLast?_cons_cons]
          simp [hn]

theorem isIgnoreMeta_eq_spec (name : String) : isIgnoreMeta name = metaJunkSpec name := by
  have := ign_fuel_spec (name.data.length + 1) name.data (by omega)
  simpa [isIgnoreMeta, metaJunkSpec] using this

theorem heldSum_filter_le (p : Reservation → Bool) (l : List Reservation) :
    heldSum (l.filter p) ≤ heldSum l := by
  induction l with
  | nil => simp [heldSum]
  | cons a l ih =>
    simp only [List.filter]
    cases p a <;> simp [heldSum] at ih ⊢ <;> omega

theorem qStep_sum (limit : Nat) (h0 h1 : List Reservation) (e : QEvent)
    (hle : heldSum h0 ≤ limit) (hstep : qStep limit h0 e = some h1) :
    heldSum h1 ≤ limit := by
  cases e with
  | acq id n =>
    simp only [qStep] at hstep
    split at hstep
    · next hcond =>
      obtain ⟨-, hsem⟩ := Bool.and_eq_true .. ▸ hcond
      have hle' : heldSum h0 + n ≤ limit := of_decide_eq_true hsem
      obtain rfl := Option.some.injEq .. ▸ hstep
      simp only [heldSum, List.map_cons, List.sum_cons] at hle' ⊢
      omega
    · exact absurd hstep (by simp)
  | rel id =>
    simp only [qStep] at hstep
    split at hstep
    · obtain rfl := Option.some.injEq .. ▸ hstep
      exact le_trans (heldSum_filter_le _ h0) hle
    · exact absurd hstep (by simp)

theorem qRun_sum_le : ∀ (evs : List QEvent) (limit : Nat) (h0 h : List Reservation),
    heldSum h0 ≤ limit → qRun limit h0 evs = some h → heldSum h ≤ limit := by
  intro evs
  induction evs with
  | nil =>
    intro limit h0 h hle hrun
    simp only [qRun, Option.some.injEq] at hrun
    exact hrun ▸ hle
  | cons e es ih =>
    intro limit h0 h hle hrun
    simp only [qRun] at hrun
    cases hstep : qStep limit h0 e with
    | none => rw [hstep] at hrun; simp at hrun
    | some h1 =>
      rw [hstep] at hrun
      exact ih limit h1 h (qStep_sum limit h0 h1 e hle hstep) hrun

/-- The first pass's `filesCount` counts exactly the non-directory,
non-excluded entries. -/
theorem scanPass_count : ∀ (entries : List Entry) (wm st : Bool) (an : String) (acc : ScanOut),
    (scanPass wm st an entries acc).filesCount = acc.filesCount + eligibleCount wm entries := by
  intro entries
  induction entries with
  | nil => intro wm st an acc; simp [scanPass, eligibleCount]
  | cons e rest ih =>
    intro wm st an acc
    by_cases hd : e.isDir = true
    · simp [scanPass, eligibleCount, eligibleEntry, hd, ih]
    · by_cases hm : metaExcluded wm e.name = true
      · simp [scanPass, eligibleCount, eligibleEntry, hd, hm, ih]
      · by_cases hlt : acc.largestSize < e.size
        · simp only [scanPass]
          simp [hd, hm, hlt, eligibleCount, eligibleEntry, ih]
          omega
        · simp only [scanPass]
          simp [hd, hm, hlt, eligibleCount, eligibleEntry, ih]
          omega

/-- The first pass's `largestSize` is the maximum declared size among the
non-directory, non-excluded entries, joined with the accumulator. -/
theorem scanPass_largest : ∀ (entries : List Entry) (wm st : Bool) (an : String) (acc : ScanOut),
    (scanPass wm st an entries acc).largestSize =
      max acc.largestSize (eligibleMaxSize wm entries) := by
  intro entries
  induction entries with
  | nil => intro wm st an acc; simp [scanPass, eligibleMaxSize]
  | cons e rest ih =>
    intro wm st an acc
    by_cases hd : e.isDir = true
    · simp [scanPass, eligibleMaxSize, eligibleEntry, hd, ih]
    · by_cases hm : metaExcluded wm e.name = true
      · simp [scanPass, eligibleMaxSize, eligibleEntry, hd, hm, ih]
      · by_cases hlt : acc.largestSize < e.size
        · simp only [scanPass]
          simp [hd, hm, hlt, eligibleMaxSize, eligibleEntry, ih]
          omega
        · simp only [scanPass]
          simp [hd, hm, hlt, eligibleMaxSize, eligibleEntry, ih]
          omega

/-- The producer emits at most one job per non-directory, non-excluded
entry. -/
theorem producer_send_le : ∀ (entries : List Entry) (wm st : Bool) (an : String)
    (sch : Sched) (tdo : Bool) (i : Nat),
    countSend (producerGo wm st an sch tdo i entries).evs ≤ eligibleCount wm entries := by
  intro entries
  induction entries with
  | nil => intro wm st an sch tdo i; simp [producerGo, countSend]
  | cons e rest ih =>
    intro wm st an sch tdo i
    have h := ih wm st an sch tdo (i + 1)
    simp only [countSend] at h ⊢
    by_cases hca : sch.cancelledAtIter i = true
    · simp [producerGo, hca]
    · by_cases hm : metaExcluded wm e.name = true
      · simp only [producerGo]
        simp [hca, hm, eligibleCount, eligibleEntry]
        exact h
      · by_cases hd : e.isDir = true
        · by_cases hmk : sch.mkdirFails i = true
          · simp [producerGo, hca, hm, hd, hmk, List.countP_cons, isSendEv]
          · simp only [producerGo]
            simp [hca, hm, hd, hmk, eligibleCount, eligibleEntry, List.countP_cons, isSendEv]
            exact h
        · by_cases hac : sch.acquireCancelled i = true
          · simp [producerGo, hca, hm, hd, hac]
          · by_cases hwt : sch.writeTempFails i = true
            · simp [producerGo, hca, hm, hd, hac, hwt, List.countP_cons, isSendEv]
            · simp only [producerGo]
              simp [hca, hm, hd, hac, hwt, eligibleCount, eligibleEntry,
                List.countP_cons, isSendEv]
              omega

theorem countRel_uploadModel (c f : Bool) (name : String) :
    countRel (uploadModel c f name).1 = 0 := by
  cases c <;> cases f <;> simp [uploadModel, countRel, List.countP_cons, isReleaseEv]

theorem countRel_workerStep (c f r : Bool) (j : Job) :
    countRel (workerStep c f r j).1 = 1 := by
  have h := countRel_uploadModel c f j.name
  simp only [countRel] at h ⊢
  cases r <;>
    simp [workerStep, List.countP_append, List.countP_cons, isReleaseEv, h]

/-- The producer has no release path: its event trace never contains a
release. -/
theorem producer_no_release : ∀ (entries : List Entry) (wm st : Bool) (an : String)
    (sch : Sched) (tdo : Bool) (i : Nat),
    countRel (producerGo wm st an sch tdo i entries).evs = 0 := by
  intro entries
  induction entries with
  | nil => intro wm st an sch tdo i; simp [producerGo, countRel]
  | cons e rest ih =>
    intro wm st an sch tdo i
    have h := ih wm st an sch tdo (i + 1)
    simp only [countRel] at h ⊢
    by_cases hca : sch.cancelledAtIter i = true
    · simp [producerGo, hca]
    · by_cases hm : metaExcluded wm e.name = true
      · simp only [producerGo]
        simp [hca, hm]
        simpa [isReleaseEv] using h
      · by_cases hd : e.isDir = true
        · by_cases hmk : sch.mkdirFails i = true
          · simp [producerGo, hca, hm, hd, hmk, List.countP_cons, isReleaseEv]
          · simp only [producerGo]
            simp [hca, hm, hd, hmk, List.countP_cons, isReleaseEv]
            simpa [isReleaseEv] using h
        · by_cases hac : sch.acquireCancelled i = true
          · simp [producerGo, hca, hm, hd, hac]
          · by_cases hwt : sch.writeTempFails i = true
            · simp [producerGo, hca, hm, hd, hac, hwt, List.countP_cons, isReleaseEv]
            · simp only [producerGo]
              simp [hca, hm, hd, hac, hwt, List.countP_cons, isReleaseEv]
              simpa [isReleaseEv] using h

/-- Each consumed job causes exactly one release. -/
theorem workersRun_rel_count : ∀ (js : List Job) (sch : Sched) (k : Nat),
    countRel (workersRun sch k js).1 = js.length := by
  intro js
  induction js with
  | nil => intro sch k; simp [workersRun, countRel]
  | cons j js ih =>
    intro sch k
    simp only [workersRun, countRel, List.countP_append]
    have h1 := countRel_workerStep (sch.uploadCancelled k) (sch.uploadFails k)
      (sch.removeFails k) j
    have h2 := ih sch (k + 1)
    simp only [countRel] at h1 h2
    rw [h1, h2]
    simp only [List.length_cons]
    omega

/-! ## Claim theorems -/

/-- C1: at every point of every execution, the sum of disk-quota bytes
acquired via `diskSem.Acquire` for non-directory entries (main.go:316-319)
and not yet released via `diskSem.Release` (main.go:277) is at most the
configured disk limit: every admitted trace of the weighted semaphore,
starting from no reservations, keeps the outstanding sum within the limit
(every intermediate point in time is the end state of some admitted
prefix). -/
theorem quota_outstanding_le_limit :
    ∀ (limit : Nat) (evs : List QEvent) (held : List Reservation),
      qRun limit [] evs = some held → heldSum held ≤ limit :=
  fun limit evs held h => qRun_sum_le evs limit [] held (by simp [heldSum]) h

/-- Witness for C1: a concrete admitted trace under limit 10 whose
outstanding sum stays within the limit. -/
theorem quota_outstanding_le_limit_witness :
    qRun 10 [] [QEvent.acq 0 4, QEvent.acq 1 6, QEvent.rel 0, QEvent.acq 2 3] =
      some [⟨2, 3⟩, ⟨1, 6⟩] ∧ heldSum [⟨2, 3⟩, ⟨1, 6⟩] ≤ 10 :=
  ⟨by decide,
   quota_outstanding_le_limit 10
     [QEvent.acq 0 4, QEvent.acq 1 6, QEvent.rel 0, QEvent.acq 2 3]
     [⟨2, 3⟩, ⟨1, 6⟩] (by decide)⟩

/-- Counterexample to C2 as stated: an archive whose largest entry (10
bytes) exceeds the limit (5) still has its download attempted — the
capacity check (main.go:244) runs only after `download` (main.go:92), so
"no download is attempted" is false; the run does fail naming the entry
and its size. -/
theorem capacity_check_downloads_first_cex :
    5 < eligibleMaxSize false [⟨"a.txt", 10, false⟩] ∧
    Ev.download ∈ (runModel "/b/data.zip" false false 5 [⟨"a.txt", 10, false⟩] schedOk).1 ∧
    (runModel "/b/data.zip" false false 5 [⟨"a.txt", 10, false⟩] schedOk).2 =
      some (RunErr.noSpace "a.txt" 10) := by
  decide

/-- C2 (amended): when the largest eligible (non-directory, non-excluded)
entry exceeds the disk limit, the run fails right after the download —
before any extraction, staging, quota acquisition, or upload — with an
error naming the scan's largest entry and its size (main.go:244-246): the
whole trace is exactly the download. -/
theorem capacity_error_after_download :
    ∀ (src : String) (wm st : Bool) (limit : Nat) (entries : List Entry) (sch : Sched),
      validateExtRun src = true →
      sch.downloadFails = false →
      newExtractorModel (pathBase src) ≠ ExtRes.panicFmt →
      limit < eligibleMaxSize wm entries →
      runModel src wm st limit entries sch =
        ([Ev.download],
         some (RunErr.noSpace
           (scanPass wm st (trimExt (pathBase src)) entries scanInit).largestFile
           (eligibleMaxSize wm entries))) := by
  intro src wm st limit entries sch hval hdl hpan hlim
  have hsize : (scanPass wm st (trimExt (pathBase src)) entries scanInit).largestSize
      = eligibleMaxSize wm entries := by
    rw [scanPass_largest]
    simp [scanInit]
  simp only [runModel, hval, hdl]
  cases hne : newExtractorModel (pathBase src) with
  | panicFmt => exact absurd hne hpan
  | sevenzFmt => simp [hne, hsize, hlim]
  | zipFmt => simp [hne, hsize, hlim]

/-- Witness for C2 (amended) at a concrete archive and limit. -/
theorem capacity_error_after_download_witness :
    validateExtRun "/b/data.zip" = true ∧
    5 < eligibleMaxSize false [⟨"a.txt", 10, false⟩] ∧
    runModel "/b/data.zip" false false 5 [⟨"a.txt", 10, false⟩] schedOk =
      ([Ev.download],
       some (RunErr.noSpace
         (scanPass false false (trimExt (pathBase "/b/data.zip"))
           [⟨"a.txt", 10, false⟩] scanInit).largestFile
         (eligibleMaxSize false [⟨"a.txt", 10, false⟩]))) :=
  ⟨by decide, by decide,
   capacity_error_after_download "/b/data.zip" false false 5
     [⟨"a.txt", 10, false⟩] schedOk (by decide) rfl (by decide) (by decide)⟩

/-- C3 evidence: a source path ending in `.ZIP` passes run's
case-insensitive validation (main.go:66-70) yet reaches the
`panic("unreachable")` default of `NewExtractor`'s case-SENSITIVE switch
(extractor.go:30-45), so the code's own "unreachable" assertion is
violated and the accepted extension aborts at runtime; the lowercase
variant is dispatched fine. -/
theorem uppercase_ext_passes_validation_then_panics :
    validateExtRun "/b/a.ZIP" = true ∧
    newExtractorModel (pathBase "/b/a.ZIP") = ExtRes.panicFmt ∧
    (runModel "/b/a.ZIP" false false 100 [] schedOk).2 = some RunErr.panicked ∧
    newExtractorModel (pathBase "/b/a.zip") = ExtRes.zipFmt := by
  decide

/-- Counterexample to C4 as stated: when staging fails (`writeTemporary`
error, main.go:321-323) after the quota was acquired, the producer returns
the error without releasing — the trace has one acquire and zero releases,
contradicting "the producer releases the quota it reserved for that entry
before the run returns". -/
theorem staging_failure_leaks_reservation_cex :
    (runModel "/b/data.zip" false false 1000 [⟨"a.txt", 10, false⟩] schedWT).2 =
      some RunErr.writeTempErr ∧
    countAcq (runModel "/b/data.zip" false false 1000 [⟨"a.txt", 10, false⟩] schedWT).1 = 1 ∧
    countRel (runModel "/b/data.zip" false false 1000 [⟨"a.txt", 10, false⟩] schedWT).1 = 0 := by
  decide

/-- C4 (amended): each job handed off and consumed is released exactly
once, by the worker, after its upload attempt completes (main.go:277); the
producer itself never releases quota — in particular, when staging fails
after acquisition the reservation is simply abandoned until process exit.
No reservation is ever double-released. -/
theorem release_exactly_once_ownership :
    (∀ (sch : Sched) (k : Nat) (js : List Job),
      countRel (workersRun sch k js).1 = js.length) ∧
    (∀ (wm st : Bool) (an : String) (sch : Sched) (tdo : Bool) (i : Nat)
      (entries : List Entry),
      countRel (producerGo wm st an sch tdo i entries).evs = 0) :=
  ⟨fun sch k js => workersRun_rel_count js sch k,
   fun wm st an sch tdo i entries => producer_no_release entries wm st an sch tdo i⟩

/-- C5: every worker invocation — whatever the upload outcome — releases
the job's reservation exactly once, attempts exactly one deletion of the
job's temp file, returns exactly the upload attempt's result, and logs a
failed deletion instead of turning it into a pipeline error
(main.go:276-288). -/
theorem worker_releases_and_removes :
    ∀ (c f r : Bool) (j : Job),
      countRel (workerStep c f r j).1 = 1 ∧
      Ev.releaseEv j.size ∈ (workerStep c f r j).1 ∧
      countRemove (workerStep c f r j).1 = 1 ∧
      Ev.removeEv j.name ∈ (workerStep c f r j).1 ∧
      (workerStep c f r j).2 = (uploadModel c f j.name).2 ∧
      countLog (workerStep c f r j).1 = (if r then 1 else 0) := by
  intro c f r j
  refine ⟨countRel_workerStep c f r j, ?_, ?_, ?_, ?_, ?_⟩
  all_goals
    cases c <;> cases f <;> cases r <;>
      simp [workerStep, uploadModel, countRemove, countLog, isRemoveEv, isLogEv,
        List.countP_append, List.countP_cons]

/-- C6: a directory entry contributes no quota acquisition, no staging job,
and no send; unless the junk filter excludes it, the producer only emits
the `MkdirAll` for its rewritten path and continues with the remaining
entries (main.go:310-315). -/
theorem dir_entries_no_quota_no_job :
    ∀ (wm st : Bool) (an : String) (sch : Sched) (tdo : Bool) (i : Nat)
      (name : String) (size : Nat) (rest : List Entry),
      sch.cancelledAtIter i = false →
      sch.mkdirFails i = false →
      producerGo wm st an sch tdo i (⟨name, size, true⟩ :: rest) =
        ⟨(if metaExcluded wm name then [] else [Ev.mkdirEv (rewriteName st tdo an name)]) ++
           (producerGo wm st an sch tdo (i + 1) rest).evs,
         (producerGo wm st an sch tdo (i + 1) rest).jobs,
         (producerGo wm st an sch tdo (i + 1) rest).err⟩ ∧
      countAcq (producerGo wm st an sch tdo i (⟨name, size, true⟩ :: rest)).evs =
        countAcq (producerGo wm st an sch tdo (i + 1) rest).evs ∧
      countSend (producerGo wm st an sch tdo i (⟨name, size, true⟩ :: rest)).evs =
        countSend (producerGo wm st an sch tdo (i + 1) rest).evs := by
  intro wm st an sch tdo i name size rest h1 h2
  have heq : producerGo wm st an sch tdo i (⟨name, size, true⟩ :: rest) =
      ⟨(if metaExcluded wm name then [] else [Ev.mkdirEv (rewriteName st tdo an name)]) ++
         (producerGo wm st an sch tdo (i + 1) rest).evs,
       (producerGo wm st an sch tdo (i + 1) rest).jobs,
       (producerGo wm st an sch tdo (i + 1) rest).err⟩ := by
    by_cases hm : metaExcluded wm name = true
    · simp [producerGo, h1, hm]
    · simp [producerGo, h1, h2, hm]
  refine ⟨heq, ?_, ?_⟩ <;> rw [heq] <;>
    by_cases hm : metaExcluded wm name = true <;>
    simp [hm, countAcq, countSend, List.countP_append, List.countP_cons,
      isAcquireEv, isSendEv]

/-- Witness for C6 on a concrete directory entry. -/
theorem dir_entries_no_quota_no_job_witness :
    schedOk.cancelledAtIter 0 = false ∧
    countAcq (producerGo false false "data" schedOk true 0 [⟨"sub", 0, true⟩]).evs =
      countAcq (producerGo false false "data" schedOk true 1 []).evs :=
  ⟨rfl, (dir_entries_no_quota_no_job false false "data" schedOk true 0 "sub" 0 [] rfl rfl).2.1⟩

/-- C7: the job channel's capacity is the first pass's `filesCount`
(main.go:260), which equals the number of non-directory, non-excluded
entries; the producer performs at most that many sends, so before the k-th
send the buffer holds at most k < capacity jobs (for any number r ≤ k of
jobs already received by the dispatcher) and no send ever blocks on queue
capacity. -/
theorem producer_sends_within_capacity :
    ∀ (wm st : Bool) (an : String) (sch : Sched) (tdo : Bool) (entries : List Entry),
      (scanPass wm st an entries scanInit).filesCount = eligibleCount wm entries ∧
      countSend (producerGo wm st an sch tdo 0 entries).evs ≤
        (scanPass wm st an entries scanInit).filesCount ∧
      (∀ k r, k < countSend (producerGo wm st an sch tdo 0 entries).evs → r ≤ k →
        k - r < (scanPass wm st an entries scanInit).filesCount) := by
  intro wm st an sch tdo entries
  have hcap : (scanPass wm st an entries scanInit).filesCount = eligibleCount wm entries := by
    rw [scanPass_count]; simp [scanInit]
  have hle := producer_send_le entries wm st an sch tdo 0
  refine ⟨hcap, by rw [hcap]; exact hle, ?_⟩
  intro k r hk hr
  rw [hcap]
  omega

/-- Witness for C7: a two-file archive fills the channel exactly to its
capacity and the occupancy bound holds at the first send. -/
theorem producer_sends_within_capacity_witness :
    0 < countSend (producerGo false false "data" schedOk true 0
        [⟨"a.txt", 10, false⟩, ⟨"b.txt", 20, false⟩]).evs ∧
    0 - 0 < (scanPass false false "data"
        [⟨"a.txt", 10, false⟩, ⟨"b.txt", 20, false⟩] scanInit).filesCount :=
  ⟨by decide,
   (producer_sends_within_capacity false false "data" schedOk true
      [⟨"a.txt", 10, false⟩, ⟨"b.txt", 20, false⟩]).2.2 0 0 (by decide) (by decide)⟩

/-- C8: under the default configuration an entry is excluded exactly when
the specification says — `__MACOSX` occurs as a non-final path component,
or the final component is exactly `.DS_Store`, `Thumbs.db`, or `__MACOSX`
(main.go:463-477) — and the `with-meta` override disables the filter
entirely (main.go:227, main.go:300); no other entry is ever excluded. -/
theorem junk_filter_matches_spec :
    ∀ name : String,
      metaExcluded false name = metaJunkSpec name ∧ metaExcluded true name = false := by
  intro name
  exact ⟨by simp [metaExcluded, isIgnoreMeta_eq_spec], by simp [metaExcluded]⟩

/-- C9: an upload attempt that observes cancellation at its start performs
no destination write, does not bump the upload counter, and returns `nil`
(main.go:131-135) — the very value a completed upload returns — so a
successful-looking result does not imply a destination write happened. -/
theorem cancelled_upload_skips_silently :
    ∀ (f : Bool) (name : String),
      uploadModel true f name = ([], none) ∧
      (uploadModel false false name).2 = (uploadModel true f name).2 ∧
      countWrite (uploadModel false false name).1 = 1 ∧
      countWrite (uploadModel true f name).1 = 0 := by
  intro f name
  cases f <;> simp [uploadModel, countWrite, List.countP_cons, isDestWrite]

/-- C10: `bytesValue.Set` is total: for every input string it either sets
a value (the parsed number scaled by the first matching unit suffix of the
lower-cased input) or returns a parse error; the trailing
`panic("unreachable")` (main.go:387) is indeed unreachable because the
final empty suffix matches every string. -/
theorem bytes_set_total_never_panics :
    ∀ s : String,
      bytesSet s ≠ SetRes.panicked ∧
      ((∃ v, bytesSet s = SetRes.ok v) ∨ bytesSet s = SetRes.err) := by
  intro s
  have h := setLoop_total bytesUnits (goToLower s) ⟨⟨"", 1⟩, by decide, rfl⟩
  have hb : bytesSet s = setLoop (goToLower s) bytesUnits := rfl
  constructor
  · rcases h with ⟨v, hv⟩ | hv <;> rw [hb, hv] <;> simp
  · rw [hb]; exact h

end GcsUnzip
